import Mathlib

/-!
Verification of the Legal Chatbot Assistant page (`app2.py`) against its
natural-language specification.  Strings are modelled as `List Char`;
every source function that the claims touch is embedded as an executable
Lean definition, and the claims are settled as theorems about those
definitions.
-/

namespace App2

/-! ## Placeholder extraction (`extract_placeholders`, app2.py lines 46-50)

The source runs `re.findall` with the placeholder pattern on the text.  We embed the
Python regex engine's behaviour on this fixed pattern: scan left to
right; at each position that starts with `{{`, take the shortest
following run of non-newline characters terminated by `}}` (non-greedy
`.*?` cannot cross a newline since `.` does not match `\n`); on success
the scan resumes after the closing `}}`, on failure it advances one
character. -/

/-- Match `(.*?)\}\}` at the front of the character list: return the
shortest newline-free prefix followed by `}}`, and the remainder after
that `}}`. -/
def matchClose : List Char → Option (List Char × List Char)
  | [] => none
  | c :: rest =>
    if c = '}' ∧ rest.head? = some '}' then some ([], rest.tail)
    else if c = '\n' then none
    else
      match matchClose rest with
      | some (nm, r) => some (c :: nm, r)
      | none => none

theorem matchClose_length {s nm r : List Char} (h : matchClose s = some (nm, r)) :
    nm.length + 2 + r.length = s.length := by
  induction s generalizing nm r with
  | nil => simp [matchClose] at h
  | cons c rest ih =>
    rw [matchClose] at h
    by_cases h1 : c = '}' ∧ rest.head? = some '}'
    · simp only [h1, if_true] at h
      obtain ⟨h2, h3⟩ := Prod.mk.injEq .. ▸ Option.some.injEq .. ▸ h
      subst h2; subst h3
      cases rest with
      | nil => simp at h1
      | cons b bs => simp; omega
    · simp only [h1, if_false] at h
      by_cases h2 : c = '\n'
      · simp [h2] at h
      · simp only [h2, if_false] at h
        cases hm : matchClose rest with
        | none => simp [hm] at h
        | some p =>
          obtain ⟨nm', r'⟩ := p
          simp only [hm] at h
          obtain ⟨h3, h4⟩ := Prod.mk.injEq .. ▸ Option.some.injEq .. ▸ h
          subst h3; subst h4
          have := ih hm
          simp; omega

/-- Fuel-indexed scanner; the fuel only serves termination, one unit per
position examined, so `s.length` units always suffice (`findAllAux_mono`). -/
def findAllAux : Nat → List Char → List (List Char)
  | 0, _ => []
  | _ + 1, [] => []
  | fuel + 1, c :: rest =>
    if c = '{' ∧ rest.head? = some '{' then
      match matchClose rest.tail with
      | some (nm, r) => nm :: findAllAux fuel r
      | none => findAllAux fuel rest
    else findAllAux fuel rest

theorem findAllAux_mono :
    ∀ (fuel : Nat) (s : List Char) (fuel2 : Nat), s.length ≤ fuel → s.length ≤ fuel2 →
      findAllAux fuel s = findAllAux fuel2 s := by
  intro fuel
  induction fuel with
  | zero =>
    intro s fuel2 h1 _
    have : s = [] := by cases s <;> simp_all
    subst this
    cases fuel2 <;> simp [findAllAux]
  | succ fuel ih =>
    intro s fuel2 h1 h2
    cases s with
    | nil => cases fuel2 <;> simp [findAllAux]
    | cons c rest =>
      obtain ⟨f2, rfl⟩ : ∃ f2, fuel2 = f2 + 1 := by
        cases fuel2 with
        | zero => simp at h2
        | succ f2 => exact ⟨f2, rfl⟩
      simp only [findAllAux]
      by_cases hbr : c = '{' ∧ rest.head? = some '{'
      · cases hm : matchClose rest.tail with
        | some p =>
          obtain ⟨nm, r⟩ := p
          have hlen := matchClose_length hm
          have htail : rest.tail.length ≤ rest.length := by cases rest <;> simp
          have hr1 : r.length ≤ fuel := by simp at h1; omega
          have hr2 : r.length ≤ f2 := by simp at h2; omega
          simp only [hbr, and_self, if_true, ih r f2 hr1 hr2]
        | none =>
          have hr1 : rest.length ≤ fuel := by simp at h1; omega
          have hr2 : rest.length ≤ f2 := by simp at h2; omega
          simp only [hbr, and_self, if_true, ih rest f2 hr1 hr2]
      · have hr1 : rest.length ≤ fuel := by simp at h1; omega
        have hr2 : rest.length ≤ f2 := by simp at h2; omega
        simp only [hbr, if_false, ih rest f2 hr1 hr2]

/-- The scan of `re.findall(r"\{\{(.*?)\}\}", ·)`: all captured names in
document order. -/
def findAll (s : List Char) : List (List Char) :=
  findAllAux s.length s

/-- The natural unfolding equation of the scan. -/
theorem findAll_cons (c : Char) (rest : List Char) :
    findAll (c :: rest) =
      if c = '{' ∧ rest.head? = some '{' then
        match matchClose rest.tail with
        | some (nm, r) => nm :: findAll r
        | none => findAll rest
      else findAll rest := by
  show findAllAux (rest.length + 1) (c :: rest) = _
  simp only [findAllAux]
  by_cases hbr : c = '{' ∧ rest.head? = some '{'
  · cases hm : matchClose rest.tail with
    | some p =>
      obtain ⟨nm, r⟩ := p
      have hlen := matchClose_length hm
      have htail : rest.tail.length ≤ rest.length := by cases rest <;> simp
      have hmono := findAllAux_mono rest.length r r.length (by omega) (le_refl _)
      simp only [hbr, and_self, if_true, hm, hmono]
      rfl
    | none =>
      simp only [hbr, and_self, if_true, hm]
      rfl
  · simp only [hbr, if_false]
    rfl

theorem findAll_nil : findAll [] = [] := rfl

/-- `extract_placeholders(text)` from app2.py: `re.findall(r"\{\{(.*?)\}\}", text)`. -/
def extract_placeholders (text : List Char) : List (List Char) :=
  findAll text

example : extract_placeholders "ab \x7b\x7bName\x7d\x7d cd \x7b\x7bDate\x7d\x7d \x7b\x7bName\x7d\x7d".data =
    ["Name".data, "Date".data, "Name".data] := by decide

example : extract_placeholders "\x7b\x7ba\nb\x7d\x7d \x7b\x7bc\x7d\x7d".data = ["c".data] := by decide

example : extract_placeholders "\x7b\x7b\x7ba\x7d\x7d".data = ["\x7ba".data] := by decide

/-! ## Well-formed templates

A template text is *well formed* when it is an interleaving of filler
runs containing no `{` and `{{name}}` markers whose names avoid the
characters that would let a marker close early (`}`), fail to match
(`\n`), or open a nested match (`{`). -/

/-- `{{f}}`, the literal marker string the source builds as
`f"{{{{{field}}}}}"`. -/
def marker (f : List Char) : List Char :=
  '{' :: '{' :: (f ++ ['}', '}'])

/-- Filler text: contains no `{`. -/
@[reducible] def noOpen (s : List Char) : Prop := ∀ c ∈ s, c ≠ '{'

/-- A well-formed field name: no `}`, no `{`, no newline. -/
@[reducible] def goodName (s : List Char) : Prop := ∀ c ∈ s, c ≠ '}' ∧ c ≠ '{' ∧ c ≠ '\n'

/-- Interleave fillers and markers:
`assemble [(f₀,n₀),…] tail = f₀ ++ {{n₀}} ++ … ++ tail`. -/
def assemble (parts : List (List Char × List Char)) (tail : List Char) : List Char :=
  parts.foldr (fun p acc => p.1 ++ marker p.2 ++ acc) tail

theorem matchClose_name {nm : List Char} (h : goodName nm) (rest : List Char) :
    matchClose (nm ++ '}' :: '}' :: rest) = some (nm, rest) := by
  induction nm with
  | nil =>
    simp [matchClose]
  | cons c cs ih =>
    have hc := h c (by simp)
    have h' : goodName cs := fun d hd => h d (by simp [hd])
    have hrec := ih h'
    simp only [List.cons_append, matchClose, hc.1, hc.2.2, if_false, false_and,
      List.append_eq, hrec]

theorem findAll_append_noOpen {fl : List Char} (h : noOpen fl) (s : List Char) :
    findAll (fl ++ s) = findAll s := by
  induction fl with
  | nil => simp
  | cons c cs ih =>
    have hc := h c (by simp)
    have h' : noOpen cs := fun d hd => h d (by simp [hd])
    rw [List.cons_append, findAll_cons]
    simp only [hc, false_and, if_false]
    exact ih h'

theorem findAll_noOpen {s : List Char} (h : noOpen s) : findAll s = [] := by
  have := findAll_append_noOpen h []
  simpa using this

theorem findAll_marker {fl nm : List Char} (hfl : noOpen fl) (hnm : goodName nm)
    (rest : List Char) :
    findAll (fl ++ marker nm ++ rest) = nm :: findAll rest := by
  rw [List.append_assoc, findAll_append_noOpen hfl]
  have hshape : marker nm ++ rest = '{' :: '{' :: (nm ++ '}' :: '}' :: rest) := by
    simp [marker]
  rw [hshape, findAll_cons]
  have hgn : goodName nm := hnm
  simp only [List.head?_cons, List.tail_cons, and_self, if_true,
    matchClose_name hgn rest]

/-- On a well-formed interleaving of fillers and markers, the scan
returns exactly the marker names, in document order, duplicates
preserved. -/
theorem extract_placeholders_complete (parts : List (List Char × List Char))
    (tail : List Char)
    (hfill : ∀ p ∈ parts, noOpen p.1) (htail : noOpen tail)
    (hname : ∀ p ∈ parts, goodName p.2) :
    extract_placeholders (assemble parts tail) = parts.map Prod.snd := by
  induction parts with
  | nil =>
    simpa [extract_placeholders, assemble] using findAll_noOpen htail
  | cons p ps ih =>
    obtain ⟨fl, nm⟩ := p
    have h1 : noOpen fl := hfill (fl, nm) (by simp)
    have h2 : goodName nm := hname (fl, nm) (by simp)
    have hrec := ih (fun q hq => hfill q (by simp [hq]))
      (fun q hq => hname q (by simp [hq]))
    show findAll (fl ++ marker nm ++ assemble ps tail) = _
    rw [findAll_marker h1 h2]
    simpa using hrec

/-! ## Template filling (`fill_docx_template`, app2.py lines 60-74)

For every paragraph, for every `(field, value)` pair of the user-input
dict (in insertion order), the source checks whether the literal marker occurs in
paragraph.text` and then runs `paragraph.text.replace(marker, value)`.
We embed Python's substring test (`in`) and `str.replace` (replace all
non-overlapping occurrences left to right, never rescanning replaced
text), and model the document as the list of its paragraph texts. -/

/-- Python's `pat in s` substring test. -/
def containsSub (pat : List Char) : List Char → Bool
  | [] => pat.isPrefixOf []
  | c :: rest => pat.isPrefixOf (c :: rest) || containsSub pat rest

/-- Fuel-indexed core of `str.replace`; one unit of fuel per position, so
`s.length` always suffices (`replaceAllAux_mono`). -/
def replaceAllAux (pat repl : List Char) : Nat → List Char → List Char
  | 0, s => s
  | _ + 1, [] => []
  | fuel + 1, c :: rest =>
    if pat.isPrefixOf (c :: rest) then
      repl ++ replaceAllAux pat repl fuel ((c :: rest).drop pat.length)
    else c :: replaceAllAux pat repl fuel rest

/-- Python's `s.replace(pat, repl)`: replace all non-overlapping
occurrences left to right (for an empty pattern, Python inserts `repl`
at every gap). -/
def replaceAll (s pat repl : List Char) : List Char :=
  if pat = [] then repl ++ s.foldr (fun c acc => c :: (repl ++ acc)) []
  else replaceAllAux pat repl s.length s

theorem isPrefixOf_length_le {pat s : List Char} (h : pat.isPrefixOf s = true) :
    pat.length ≤ s.length :=
  (List.isPrefixOf_iff_prefix.mp h).length_le

theorem replaceAllAux_mono (pat repl : List Char) (hpat : pat ≠ []) :
    ∀ (fuel : Nat) (s : List Char) (fuel2 : Nat), s.length ≤ fuel → s.length ≤ fuel2 →
      replaceAllAux pat repl fuel s = replaceAllAux pat repl fuel2 s := by
  intro fuel
  induction fuel with
  | zero =>
    intro s fuel2 h1 _
    have : s = [] := by cases s <;> simp_all
    subst this
    cases fuel2 <;> simp [replaceAllAux]
  | succ fuel ih =>
    intro s fuel2 h1 h2
    cases s with
    | nil => cases fuel2 <;> simp [replaceAllAux]
    | cons c rest =>
      obtain ⟨f2, rfl⟩ : ∃ f2, fuel2 = f2 + 1 := by
        cases fuel2 with
        | zero => simp at h2
        | succ f2 => exact ⟨f2, rfl⟩
      simp only [replaceAllAux]
      by_cases hbr : pat.isPrefixOf (c :: rest) = true
      · have hlen := isPrefixOf_length_le hbr
        have hplen : 1 ≤ pat.length := by cases pat with
          | nil => exact absurd rfl hpat
          | cons a as => simp
        have hdlen : ((c :: rest).drop pat.length).length ≤ rest.length := by
          simp only [List.length_drop]
          simp; omega
        have hr1 : ((c :: rest).drop pat.length).length ≤ fuel := by
          simp at h1; omega
        have hr2 : ((c :: rest).drop pat.length).length ≤ f2 := by
          simp at h2; omega
        simp only [hbr, if_true, ih _ f2 hr1 hr2]
      · have hr1 : rest.length ≤ fuel := by simp at h1; omega
        have hr2 : rest.length ≤ f2 := by simp at h2; omega
        simp only [hbr, if_false, ih rest f2 hr1 hr2, Bool.false_eq_true]

theorem replaceAll_nil (pat repl : List Char) (hpat : pat ≠ []) :
    replaceAll [] pat repl = [] := by
  simp [replaceAll, hpat, replaceAllAux]

/-- The natural unfolding equation of `str.replace` on a non-empty
pattern. -/
theorem replaceAll_cons (c : Char) (rest pat repl : List Char) (hpat : pat ≠ []) :
    replaceAll (c :: rest) pat repl =
      if pat.isPrefixOf (c :: rest) then
        repl ++ replaceAll ((c :: rest).drop pat.length) pat repl
      else c :: replaceAll rest pat repl := by
  simp only [replaceAll, hpat, if_false]
  show replaceAllAux pat repl (rest.length + 1) (c :: rest) = _
  simp only [replaceAllAux]
  by_cases hbr : pat.isPrefixOf (c :: rest) = true
  · have hlen := isPrefixOf_length_le hbr
    have hplen : 1 ≤ pat.length := by cases pat with
      | nil => exact absurd rfl hpat
      | cons a as => simp
    have hdlen : ((c :: rest).drop pat.length).length ≤ rest.length := by
      simp only [List.length_drop]; simp; omega
    simp only [hbr, if_true]
    rw [replaceAllAux_mono pat repl hpat rest.length _ ((c :: rest).drop pat.length).length
      hdlen (le_refl _)]
  · simp only [hbr, if_false, Bool.false_eq_true]

/-- `fill_docx_template(file, user_inputs)` from app2.py, on the
document's paragraph texts: for each paragraph, fold over the
user-input pairs in insertion order, replacing every occurrence of
`{{field}}` when present. -/
def fillPara (user_inputs : List (List Char × List Char)) (p : List Char) : List Char :=
  user_inputs.foldl
    (fun t fv => if containsSub (marker fv.1) t then replaceAll t (marker fv.1) fv.2 else t) p

def fill_docx_template (paragraphs : List (List Char))
    (user_inputs : List (List Char × List Char)) : List (List Char) :=
  paragraphs.map (fillPara user_inputs)

example : fill_docx_template ["Dear \x7b\x7bName\x7d\x7d, re \x7b\x7bCase\x7d\x7d.".data]
    [("Name".data, "Ada".data), ("Case".data, "X1".data)] =
    ["Dear Ada, re X1.".data] := by decide

example : fill_docx_template ["\x7b\x7bA\x7d\x7d".data] [("A".data, "\x7b\x7bA\x7d\x7d".data)] =
    ["\x7b\x7bA\x7d\x7d".data] := by decide

theorem marker_ne_nil (f : List Char) : marker f ≠ [] := by simp [marker]

/-- If the pattern does not occur, `str.replace` is the identity. -/
theorem replaceAll_of_not_contains {t pat : List Char} (repl : List Char)
    (h : containsSub pat t = false) : replaceAll t pat repl = t := by
  have hpat : pat ≠ [] := by
    intro he
    subst he
    cases t <;> simp [containsSub] at h
  induction t with
  | nil => exact replaceAll_nil pat repl hpat
  | cons c rest ih =>
    rw [containsSub, Bool.or_eq_false_iff] at h
    rw [replaceAll_cons c rest pat repl hpat, h.1, ih h.2]
    simp

/-- Scanning a `{`-free run never starts a match of a marker pattern. -/
theorem replaceAll_append_noOpen {m : List Char} (hm : noOpen m)
    (s f v : List Char) :
    replaceAll (m ++ s) (marker f) v = m ++ replaceAll s (marker f) v := by
  induction m with
  | nil => simp
  | cons c cs ih =>
    have hc : c ≠ '{' := hm c (by simp)
    have hcs : noOpen cs := fun d hd => hm d (by simp [hd])
    rw [List.cons_append, replaceAll_cons c (cs ++ s) (marker f) v (marker_ne_nil f)]
    have hpre : (marker f).isPrefixOf (c :: (cs ++ s)) = false := by
      simp only [marker, List.isPrefixOf]
      have : ('{' == c) = false := by
        simp only [beq_eq_false_iff_ne, ne_eq]
        exact fun he => hc he.symm
      simp [this]
    rw [hpre]
    simp only [Bool.false_eq_true, if_false, ih hcs, List.cons_append]

theorem containsSub_append_noOpen {m : List Char} (hm : noOpen m)
    (s f : List Char) :
    containsSub (marker f) (m ++ s) = containsSub (marker f) s := by
  induction m with
  | nil => simp
  | cons c cs ih =>
    have hc : c ≠ '{' := hm c (by simp)
    have hcs : noOpen cs := fun d hd => hm d (by simp [hd])
    rw [List.cons_append, containsSub]
    have hpre : (marker f).isPrefixOf (c :: (cs ++ s)) = false := by
      simp only [marker, List.isPrefixOf]
      have : ('{' == c) = false := by
        simp only [beq_eq_false_iff_ne, ne_eq]
        exact fun he => hc he.symm
      simp [this]
    rw [hpre]
    simp [ih hcs]

/-- `f}}` is a prefix of `n}}rest` exactly when `f = n`, provided neither
name contains `}`. -/
theorem closes_isPrefixOf {f n : List Char} (hf : ∀ c ∈ f, c ≠ '}')
    (hn : ∀ c ∈ n, c ≠ '}') (rest : List Char) :
    ((f ++ ['}', '}']).isPrefixOf (n ++ '}' :: '}' :: rest) = true) ↔ f = n := by
  induction f generalizing n with
  | nil =>
    cases n with
    | nil => simp [List.isPrefixOf]
    | cons d ds =>
      have hd : d ≠ '}' := hn d (by simp)
      simp only [List.nil_append, List.cons_append, List.isPrefixOf]
      have : ('}' == d) = false := by
        simp only [beq_eq_false_iff_ne, ne_eq]
        exact fun he => hd he.symm
      simp [this]
  | cons a as ih =>
    have ha : a ≠ '}' := hf a (by simp)
    have has : ∀ c ∈ as, c ≠ '}' := fun d hd => hf d (by simp [hd])
    cases n with
    | nil =>
      simp only [List.cons_append, List.nil_append, List.isPrefixOf]
      have : (a == '}') = false := by simp [ha]
      simp [this]
    | cons d ds =>
      have hds : ∀ c ∈ ds, c ≠ '}' := fun e he => hn e (by simp [he])
      simp only [List.cons_append, List.isPrefixOf]
      by_cases had : a = d
      · subst had
        simp only [beq_self_eq_true, Bool.true_and, List.append_eq]
        rw [ih has hds]
        simp
      · have : (a == d) = false := by simp [had]
        simp [this, had]

/-- `{{f}}` is a prefix of `{{n}}rest` exactly when `f = n`. -/
theorem marker_isPrefixOf_marker {f n : List Char} (hf : ∀ c ∈ f, c ≠ '}')
    (hn : ∀ c ∈ n, c ≠ '}') (rest : List Char) :
    ((marker f).isPrefixOf (marker n ++ rest) = true) ↔ f = n := by
  have hshape : marker n ++ rest = '{' :: '{' :: (n ++ '}' :: '}' :: rest) := by
    simp [marker]
  rw [hshape]
  simp only [marker, List.isPrefixOf, beq_self_eq_true, Bool.true_and]
  exact closes_isPrefixOf hf hn rest

/-- A marker pattern does not match one character into another marker. -/
theorem marker_not_prefix_inner {n : List Char} (hn : goodName n)
    (f s : List Char) :
    (marker f).isPrefixOf ('{' :: (n ++ '}' :: '}' :: s)) = false := by
  simp only [marker, List.isPrefixOf, beq_self_eq_true, Bool.true_and]
  cases n with
  | nil => simp [List.isPrefixOf]
  | cons d ds =>
    have hd : d ≠ '{' := (hn d (by simp)).2.1
    simp only [List.cons_append, List.isPrefixOf]
    have : ('{' == d) = false := by
      simp only [beq_eq_false_iff_ne, ne_eq]
      exact fun he => hd he.symm
    simp [this]

theorem replaceAll_marker_eq (f s v : List Char) :
    replaceAll (marker f ++ s) (marker f) v = v ++ replaceAll s (marker f) v := by
  have hshape : marker f ++ s = '{' :: ('{' :: (f ++ '}' :: '}' :: s)) := by
    simp [marker]
  have hpre : (marker f).isPrefixOf ('{' :: ('{' :: (f ++ '}' :: '}' :: s))) = true := by
    rw [← hshape]
    exact List.isPrefixOf_iff_prefix.mpr (List.prefix_append _ _)
  have hdrop : ('{' :: ('{' :: (f ++ '}' :: '}' :: s))).drop (marker f).length = s := by
    rw [← hshape]
    exact List.drop_left _ _
  rw [hshape, replaceAll_cons _ _ _ _ (marker_ne_nil f), hpre]
  simp only [if_true, hdrop]

theorem replaceAll_marker_ne {f n : List Char} (hf : ∀ c ∈ f, c ≠ '}')
    (hn : goodName n) (hne : n ≠ f) (s v : List Char) :
    replaceAll (marker n ++ s) (marker f) v = marker n ++ replaceAll s (marker f) v := by
  have hn' : ∀ c ∈ n, c ≠ '}' := fun c hc => (hn c hc).1
  have hshape : marker n ++ s = '{' :: ('{' :: (n ++ '}' :: '}' :: s)) := by
    simp [marker]
  have hpre0 : (marker f).isPrefixOf ('{' :: ('{' :: (n ++ '}' :: '}' :: s))) = false := by
    rw [← hshape]
    by_cases h : (marker f).isPrefixOf (marker n ++ s) = true
    · exact absurd ((marker_isPrefixOf_marker hf hn' s).mp h).symm hne
    · exact Bool.eq_false_iff.mpr h
  have hpre1 := marker_not_prefix_inner hn f s
  have hbody : ∀ c ∈ n ++ ['}', '}'], c ≠ '{' := by
    intro c hc
    rcases List.mem_append.mp hc with h | h
    · exact (hn c h).2.1
    · simp at h
      subst h
      decide
  rw [hshape, replaceAll_cons _ _ _ _ (marker_ne_nil f), hpre0]
  simp only [Bool.false_eq_true, if_false]
  rw [replaceAll_cons _ _ _ _ (marker_ne_nil f), hpre1]
  simp only [Bool.false_eq_true, if_false]
  have hsplit : n ++ '}' :: '}' :: s = (n ++ ['}', '}']) ++ s := by simp
  rw [hsplit, replaceAll_append_noOpen hbody s f v]
  simp [marker]

theorem containsSub_marker_ne {f n : List Char} (hf : ∀ c ∈ f, c ≠ '}')
    (hn : goodName n) (hne : n ≠ f) (s : List Char) :
    containsSub (marker f) (marker n ++ s) = containsSub (marker f) s := by
  have hn' : ∀ c ∈ n, c ≠ '}' := fun c hc => (hn c hc).1
  have hshape : marker n ++ s = '{' :: ('{' :: (n ++ '}' :: '}' :: s)) := by
    simp [marker]
  have hpre0 : (marker f).isPrefixOf ('{' :: ('{' :: (n ++ '}' :: '}' :: s))) = false := by
    rw [← hshape]
    by_cases h : (marker f).isPrefixOf (marker n ++ s) = true
    · exact absurd ((marker_isPrefixOf_marker hf hn' s).mp h).symm hne
    · exact Bool.eq_false_iff.mpr h
  have hpre1 := marker_not_prefix_inner hn f s
  have hbody : ∀ c ∈ n ++ ['}', '}'], c ≠ '{' := by
    intro c hc
    rcases List.mem_append.mp hc with h | h
    · exact (hn c h).2.1
    · simp at h
      subst h
      decide
  rw [hshape, containsSub, hpre0]
  simp only [Bool.false_or]
  rw [containsSub, hpre1]
  simp only [Bool.false_or]
  have hsplit : n ++ '}' :: '}' :: s = (n ++ ['}', '}']) ++ s := by simp
  rw [hsplit, containsSub_append_noOpen hbody s f]

/-- Well-formed decomposition of a paragraph: every filler is `{`-free
and every name is a good name. -/
@[reducible] def wfParts (parts : List (List Char × List Char)) (tail : List Char) : Prop :=
  (∀ p ∈ parts, noOpen p.1 ∧ goodName p.2) ∧ noOpen tail

/-- Effect of one `str.replace` pass on a decomposition: each marker
named `f` is replaced by `v` and merged into the surrounding filler. -/
def substParts (f v : List Char) :
    List (List Char × List Char) → List Char → List (List Char × List Char) × List Char
  | [], tail => ([], tail)
  | (fl, n) :: ps, tail =>
    if n = f then
      match substParts f v ps tail with
      | ([], tl) => ([], fl ++ v ++ tl)
      | ((fl2, n2) :: rest, tl) => ((fl ++ v ++ fl2, n2) :: rest, tl)
    else ((fl, n) :: (substParts f v ps tail).1, (substParts f v ps tail).2)

theorem replaceAll_assemble {f : List Char} (hf : ∀ c ∈ f, c ≠ '}') (v : List Char) :
    ∀ (parts : List (List Char × List Char)) (tail : List Char), wfParts parts tail →
      replaceAll (assemble parts tail) (marker f) v =
        assemble (substParts f v parts tail).1 (substParts f v parts tail).2 := by
  intro parts
  induction parts with
  | nil =>
    intro tail hw
    have := replaceAll_append_noOpen hw.2 [] f v
    simp only [List.append_nil] at this
    rw [show assemble [] tail = tail from rfl, this,
      replaceAll_nil _ _ (marker_ne_nil f)]
    simp [substParts, assemble]
  | cons p ps ih =>
    intro tail hw
    obtain ⟨fl, n⟩ := p
    have hfl : noOpen fl := (hw.1 (fl, n) (by simp)).1
    have hn : goodName n := (hw.1 (fl, n) (by simp)).2
    have hw' : wfParts ps tail := ⟨fun q hq => hw.1 q (by simp [hq]), hw.2⟩
    have hA : assemble ((fl, n) :: ps) tail = fl ++ (marker n ++ assemble ps tail) := by
      simp [assemble]
    rw [hA, replaceAll_append_noOpen hfl]
    rcases hsub : substParts f v ps tail with ⟨ps', tl'⟩
    have ihe : replaceAll (assemble ps tail) (marker f) v = assemble ps' tl' := by
      have := ih tail hw'
      rw [hsub] at this
      exact this
    by_cases hne : n = f
    · subst hne
      rw [replaceAll_marker_eq, ihe]
      show fl ++ (v ++ assemble ps' tl') = _
      simp only [substParts, if_pos rfl, hsub]
      cases ps' with
      | nil => simp [assemble]
      | cons q rest =>
        obtain ⟨fl2, n2⟩ := q
        simp [assemble]
    · rw [replaceAll_marker_ne hf hn hne, ihe]
      simp only [substParts, if_neg hne, hsub]
      simp [assemble]

theorem substParts_wf {f v : List Char} (hv : noOpen v) :
    ∀ (parts : List (List Char × List Char)) (tail : List Char), wfParts parts tail →
      wfParts (substParts f v parts tail).1 (substParts f v parts tail).2 := by
  intro parts
  induction parts with
  | nil => intro tail hw; simpa [substParts] using hw
  | cons p ps ih =>
    intro tail hw
    obtain ⟨fl, n⟩ := p
    have hfl : noOpen fl := (hw.1 (fl, n) (by simp)).1
    have hn : goodName n := (hw.1 (fl, n) (by simp)).2
    have hw' : wfParts ps tail := ⟨fun q hq => hw.1 q (by simp [hq]), hw.2⟩
    have hrec := ih tail hw'
    rcases hsub : substParts f v ps tail with ⟨ps', tl'⟩
    rw [hsub] at hrec
    by_cases hne : n = f
    · subst hne
      simp only [substParts, if_pos rfl, hsub]
      cases ps' with
      | nil =>
        refine ⟨by simp, ?_⟩
        intro c hc
        rcases List.mem_append.mp hc with h | h
        · rcases List.mem_append.mp h with h1 | h1
          · exact hfl c h1
          · exact hv c h1
        · exact hrec.2 c h
      | cons q rest =>
        obtain ⟨fl2, n2⟩ := q
        have hq2 := hrec.1 (fl2, n2) (by simp)
        refine ⟨?_, hrec.2⟩
        intro r hr
        rcases List.mem_cons.mp hr with h | h
        · subst h
          refine ⟨?_, hq2.2⟩
          intro c hc
          rcases List.mem_append.mp hc with h1 | h1
          · rcases List.mem_append.mp h1 with h2 | h2
            · exact hfl c h2
            · exact hv c h2
          · exact hq2.1 c h1
        · exact hrec.1 r (by simp [h])
    · simp only [substParts, if_neg hne, hsub]
      refine ⟨?_, hrec.2⟩
      intro r hr
      rcases List.mem_cons.mp hr with h | h
      · subst h; exact ⟨hfl, hn⟩
      · exact hrec.1 r (by simp [h])

theorem substParts_names (f v : List Char) :
    ∀ (parts : List (List Char × List Char)) (tail : List Char),
      (substParts f v parts tail).1.map Prod.snd =
        (parts.map Prod.snd).filter (fun n => !(n == f)) := by
  intro parts
  induction parts with
  | nil => intro tail; simp [substParts]
  | cons p ps ih =>
    intro tail
    obtain ⟨fl, n⟩ := p
    rcases hsub : substParts f v ps tail with ⟨ps', tl'⟩
    have hrec : ps'.map Prod.snd = (ps.map Prod.snd).filter (fun n => !(n == f)) := by
      have := ih tail
      rw [hsub] at this
      exact this
    by_cases hne : n = f
    · subst hne
      simp only [substParts, if_pos rfl, hsub]
      cases ps' with
      | nil =>
        simp only [List.map_cons, List.filter_cons, beq_self_eq_true, Bool.not_true]
        simp [← hrec]
      | cons q rest =>
        obtain ⟨fl2, n2⟩ := q
        simp only [List.map_cons, List.filter_cons, beq_self_eq_true, Bool.not_true]
        simp [← hrec]
    · simp only [substParts, if_neg hne, hsub]
      have hb : (n == f) = false := by simp [hne]
      simp [List.filter_cons, hb, hrec]

/-- The whole inner loop of `fill_docx_template` on a decomposition:
apply `substParts` for each `(field, value)` pair in dict order. -/
def substAll (inputs : List (List Char × List Char))
    (pr : List (List Char × List Char) × List Char) :
    List (List Char × List Char) × List Char :=
  inputs.foldl (fun pr fv => substParts fv.1 fv.2 pr.1 pr.2) pr

/-- The names whose markers survive the fill: those equal to no key. -/
def survivors (inputs : List (List Char × List Char)) (ns : List (List Char)) :
    List (List Char) :=
  inputs.foldl (fun ns fv => ns.filter (fun n => !(n == fv.1))) ns

/-- The source's guard `if marker in paragraph.text` is redundant for the
value of the paragraph: `str.replace` already leaves the text unchanged
when the marker is absent. -/
theorem guard_step_eq (t pat repl : List Char) :
    (if containsSub pat t then replaceAll t pat repl else t) = replaceAll t pat repl := by
  by_cases h : containsSub pat t = true
  · simp [h]
  · have hf : containsSub pat t = false := Bool.eq_false_iff.mpr h
    rw [replaceAll_of_not_contains repl hf]
    simp [hf]

theorem fillPara_substAll :
    ∀ (inputs : List (List Char × List Char)) (parts : List (List Char × List Char))
      (tail : List Char), wfParts parts tail →
      (∀ fv ∈ inputs, goodName fv.1) → (∀ fv ∈ inputs, noOpen fv.2) →
      fillPara inputs (assemble parts tail) =
        assemble (substAll inputs (parts, tail)).1 (substAll inputs (parts, tail)).2 := by
  intro inputs
  induction inputs with
  | nil => intro parts tail _ _ _; rfl
  | cons fv rest ih =>
    intro parts tail hw hk hv
    obtain ⟨f, v⟩ := fv
    have hf : ∀ c ∈ f, c ≠ '}' := fun c hc => ((hk (f, v) (by simp)) c hc).1
    have hv0 : noOpen v := hv (f, v) (by simp)
    have hstep : fillPara ((f, v) :: rest) (assemble parts tail) =
        fillPara rest (replaceAll (assemble parts tail) (marker f) v) := by
      show List.foldl _ _ ((f, v) :: rest) = _
      rw [List.foldl_cons]
      rw [guard_step_eq]
      rfl
    rw [hstep, replaceAll_assemble hf v parts tail hw]
    rcases hsub : substParts f v parts tail with ⟨ps', tl'⟩
    have hw' : wfParts ps' tl' := by
      have := substParts_wf (f := f) hv0 parts tail hw
      rw [hsub] at this
      exact this
    rw [ih ps' tl' hw' (fun q hq => hk q (by simp [hq])) (fun q hq => hv q (by simp [hq]))]
    show _ = assemble (substAll ((f, v) :: rest) (parts, tail)).1
      (substAll ((f, v) :: rest) (parts, tail)).2
    simp only [substAll, List.foldl_cons, hsub]

theorem substAll_names :
    ∀ (inputs : List (List Char × List Char)) (parts : List (List Char × List Char))
      (tail : List Char),
      (substAll inputs (parts, tail)).1.map Prod.snd =
        survivors inputs (parts.map Prod.snd) := by
  intro inputs
  induction inputs with
  | nil => intro parts tail; rfl
  | cons fv rest ih =>
    intro parts tail
    obtain ⟨f, v⟩ := fv
    rcases hsub : substParts f v parts tail with ⟨ps', tl'⟩
    have hnames : ps'.map Prod.snd = (parts.map Prod.snd).filter (fun n => !(n == f)) := by
      have := substParts_names f v parts tail
      rw [hsub] at this
      exact this
    show (substAll rest (substParts f v parts tail)).1.map Prod.snd =
      survivors rest ((parts.map Prod.snd).filter (fun n => !(n == f)))
    rw [hsub, ih ps' tl', hnames]

theorem substAll_wf :
    ∀ (inputs : List (List Char × List Char)) (parts : List (List Char × List Char))
      (tail : List Char), wfParts parts tail → (∀ fv ∈ inputs, noOpen fv.2) →
      wfParts (substAll inputs (parts, tail)).1 (substAll inputs (parts, tail)).2 := by
  intro inputs
  induction inputs with
  | nil => intro parts tail hw _; exact hw
  | cons fv rest ih =>
    intro parts tail hw hv
    obtain ⟨f, v⟩ := fv
    rcases hsub : substParts f v parts tail with ⟨ps', tl'⟩
    have hw' : wfParts ps' tl' := by
      have := substParts_wf (f := f) (hv (f, v) (by simp)) parts tail hw
      rw [hsub] at this
      exact this
    show wfParts (substAll rest (substParts f v parts tail)).1
      (substAll rest (substParts f v parts tail)).2
    rw [hsub]
    exact ih ps' tl' hw' (fun q hq => hv q (by simp [hq]))

theorem survivors_subset :
    ∀ (inputs : List (List Char × List Char)) (ns : List (List Char)) (x : List Char),
      x ∈ survivors inputs ns → x ∈ ns := by
  intro inputs
  induction inputs with
  | nil => intro ns x hx; exact hx
  | cons fv rest ih =>
    intro ns x hx
    have : x ∈ ns.filter (fun n => !(n == fv.1)) := ih _ x hx
    exact List.mem_of_mem_filter this

theorem key_not_mem_survivors :
    ∀ (inputs : List (List Char × List Char)) (ns : List (List Char)) (f : List Char),
      (∃ fv ∈ inputs, fv.1 = f) → f ∉ survivors inputs ns := by
  intro inputs
  induction inputs with
  | nil => intro ns f h; simp at h
  | cons fv rest ih =>
    intro ns f h
    rcases h with ⟨gv, hg, hgf⟩
    rcases List.mem_cons.mp hg with h1 | h1
    · subst h1
      subst hgf
      intro hmem
      have hfil : gv.1 ∈ ns.filter (fun n => !(n == gv.1)) :=
        survivors_subset rest _ _ hmem
      have := List.of_mem_filter hfil
      simp at this
    · exact ih _ f ⟨gv, h1, hgf⟩

theorem containsSub_assemble_false {f : List Char} (hf : ∀ c ∈ f, c ≠ '}') :
    ∀ (parts : List (List Char × List Char)) (tail : List Char), wfParts parts tail →
      f ∉ parts.map Prod.snd →
      containsSub (marker f) (assemble parts tail) = false := by
  intro parts
  induction parts with
  | nil =>
    intro tail hw _
    have h1 := containsSub_append_noOpen hw.2 [] f
    simp only [List.append_nil] at h1
    rw [show assemble [] tail = tail from rfl, h1]
    simp [containsSub, marker, List.isPrefixOf]
  | cons p ps ih =>
    intro tail hw hmem
    obtain ⟨fl, n⟩ := p
    have hfl : noOpen fl := (hw.1 (fl, n) (by simp)).1
    have hn : goodName n := (hw.1 (fl, n) (by simp)).2
    have hw' : wfParts ps tail := ⟨fun q hq => hw.1 q (by simp [hq]), hw.2⟩
    have hne : n ≠ f := by
      intro he
      exact hmem (by simp [← he])
    have hA : assemble ((fl, n) :: ps) tail = fl ++ (marker n ++ assemble ps tail) := by
      simp [assemble]
    rw [hA, containsSub_append_noOpen hfl, containsSub_marker_ne hf hn hne]
    exact ih tail hw' (fun hx => hmem (by simp [hx]))

/-- Paragraphs containing no mapped marker are untouched by the fill. -/
theorem fillPara_untouched (inputs : List (List Char × List Char)) (p : List Char)
    (h : ∀ fv ∈ inputs, containsSub (marker fv.1) p = false) :
    fillPara inputs p = p := by
  induction inputs with
  | nil => rfl
  | cons fv rest ih =>
    show List.foldl _ _ (fv :: rest) = p
    rw [List.foldl_cons]
    have h0 := h fv (by simp)
    simp only [h0, Bool.false_eq_true, if_false]
    exact ih (fun q hq => h q (by simp [hq]))

/-- C1: for every text containing well-formed `{{name}}` markers — an
interleaving of `{`-free filler runs and markers with good names —
`extract_placeholders` returns exactly those names, in document order,
duplicates preserved. -/
theorem extract_placeholders_exact (parts : List (List Char × List Char))
    (tail : List Char)
    (hfill : ∀ p ∈ parts, noOpen p.1) (htail : noOpen tail)
    (hname : ∀ p ∈ parts, goodName p.2) :
    extract_placeholders (assemble parts tail) = parts.map Prod.snd :=
  extract_placeholders_complete parts tail hfill htail hname

/-- Witness for `extract_placeholders_exact`: a two-marker template with
the field name `Name` repeated. -/
theorem extract_placeholders_exact_witness :
    extract_placeholders
        (assemble [("Dear ".data, "Name".data), (" and ".data, "Name".data)] ".".data) =
      [("Dear ".data, "Name".data), (" and ".data, "Name".data)].map Prod.snd :=
  extract_placeholders_exact
    [("Dear ".data, "Name".data), (" and ".data, "Name".data)] ".".data
    (by decide) (by decide) (by decide)

/-- C2 counterexample: the claim fails as stated.  With the single-field
map sending field `A` to the text `{{A}}`, on the one-paragraph template `{{A}}`, the fill
returns the paragraph `{{A}}` unchanged, so a marker of a field present
in the map survives the fill. -/
theorem fill_docx_template_marker_survives :
    fill_docx_template ["\x7b\x7bA\x7d\x7d".data] [("A".data, "\x7b\x7bA\x7d\x7d".data)] = ["\x7b\x7bA\x7d\x7d".data]
    ∧ containsSub (marker "A".data) "\x7b\x7bA\x7d\x7d".data = true := by
  exact ⟨by decide, by decide⟩

/-- C2 (amended): on templates whose paragraphs are well-formed
interleavings of `{`-free filler and `{{name}}` markers, with good field
names and `{`-free values: (i) the fill rewrites each paragraph to its
decomposition with every mapped marker substituted, (ii) no marker of a
mapped field remains anywhere, (iii) the surviving markers are exactly
those of unmapped fields, in order, and (iv) any paragraph containing no
mapped marker is untouched byte for byte. -/
theorem fill_docx_template_spec
    (tmpl : List (List (List Char × List Char) × List Char))
    (inputs : List (List Char × List Char))
    (hwf : ∀ d ∈ tmpl, wfParts d.1 d.2)
    (hkeys : ∀ fv ∈ inputs, goodName fv.1)
    (hvals : ∀ fv ∈ inputs, noOpen fv.2) :
    fill_docx_template (tmpl.map fun d => assemble d.1 d.2) inputs
      = tmpl.map (fun d => assemble (substAll inputs (d.1, d.2)).1 (substAll inputs (d.1, d.2)).2)
    ∧ (∀ fv ∈ inputs, ∀ q ∈ fill_docx_template (tmpl.map fun d => assemble d.1 d.2) inputs,
        containsSub (marker fv.1) q = false)
    ∧ (∀ d ∈ tmpl, (substAll inputs (d.1, d.2)).1.map Prod.snd =
        survivors inputs (d.1.map Prod.snd))
    ∧ (∀ p : List Char, (∀ fv ∈ inputs, containsSub (marker fv.1) p = false) →
        fillPara inputs p = p) := by
  have hmain : fill_docx_template (tmpl.map fun d => assemble d.1 d.2) inputs
      = tmpl.map (fun d => assemble (substAll inputs (d.1, d.2)).1
          (substAll inputs (d.1, d.2)).2) := by
    show (tmpl.map fun d => assemble d.1 d.2).map (fillPara inputs) = _
    rw [List.map_map]
    apply List.map_congr_left
    intro d hd
    exact fillPara_substAll inputs d.1 d.2 (hwf d hd) hkeys hvals
  refine ⟨hmain, ?_, ?_, ?_⟩
  · intro fv hfv q hq
    rw [hmain] at hq
    rcases List.mem_map.mp hq with ⟨d, hd, rfl⟩
    have hwf' : wfParts (substAll inputs (d.1, d.2)).1 (substAll inputs (d.1, d.2)).2 :=
      substAll_wf inputs d.1 d.2 (hwf d hd) hvals
    have hnames : (substAll inputs (d.1, d.2)).1.map Prod.snd =
        survivors inputs (d.1.map Prod.snd) := substAll_names inputs d.1 d.2
    have hf : ∀ c ∈ fv.1, c ≠ '}' := fun c hc => (hkeys fv hfv c hc).1
    apply containsSub_assemble_false hf _ _ hwf'
    rw [hnames]
    exact key_not_mem_survivors inputs (d.1.map Prod.snd) fv.1 ⟨fv, hfv, rfl⟩
  · intro d _
    exact substAll_names inputs d.1 d.2
  · exact fun p h => fillPara_untouched inputs p h

/-- Witness for `fill_docx_template_spec`: one paragraph
`Dear {{Name}}!`, map `Name ↦ Ada`. -/
theorem fill_docx_template_spec_witness :
    fill_docx_template [assemble [("Dear ".data, "Name".data)] "!".data]
        [("Name".data, "Ada".data)]
      = [assemble (substAll [("Name".data, "Ada".data)] ([("Dear ".data, "Name".data)], "!".data)).1
          (substAll [("Name".data, "Ada".data)] ([("Dear ".data, "Name".data)], "!".data)).2] := by
  have h := fill_docx_template_spec [([("Dear ".data, "Name".data)], "!".data)]
    [("Name".data, "Ada".data)] (by decide) (by decide) (by decide)
  simpa using h.1

/-! ## File-text extraction (`extract_text_from_file`, app2.py lines 107-125)

The source dispatches on `file.type`: for PDF it accumulates
`text += page.extract_text()` over the pages (no separator), for DOCX it
joins the paragraph texts with `"\n"`, for plain text it returns the
decoded bytes, and otherwise it returns `None`.  The binary parsing is
delegated to PyPDF2/python-docx, so the uploaded file is modelled by the
texts those libraries deliver, plus the declared content type. -/

structure UploadedFile where
  ftype : List Char
  pdfPages : List (List Char)
  docxParagraphs : List (List Char)
  rawText : List Char

def pdfMime : List Char := "application/pdf".data

def docxMime : List Char :=
  "application/vnd.openxmlformats-officedocument.wordprocessingml.document".data

def txtMime : List Char := "text/plain".data

def extract_text_from_file (file : UploadedFile) : Option (List Char) :=
  if file.ftype = pdfMime then
    some (file.pdfPages.foldl (fun text p => text ++ p) [])
  else if file.ftype = docxMime then
    some (List.intercalate ['\n'] file.docxParagraphs)
  else if file.ftype = txtMime then
    some file.rawText
  else
    none

/-- Python truthiness of the optional extraction result: `None` and the
empty string are both falsy; the caller's branch `if document_text:`. -/
def pyTruthy : Option (List Char) → Bool
  | none => false
  | some s => !s.isEmpty

theorem foldl_append_eq_join :
    ∀ (l : List (List Char)) (acc : List Char),
      l.foldl (fun text p => text ++ p) acc = acc ++ l.flatten := by
  intro l
  induction l with
  | nil => intro acc; simp
  | cons x xs ih => intro acc; simp [ih (acc ++ x)]

/-- C3 corrected, counterexample to the claim as stated: the declared
content type `text/plain` with empty content extracts to `some ""`,
while an unsupported type extracts to `none`; the caller's truthiness
test sends both to the same error branch, so it conflates the two
instead of distinguishing them. -/
theorem caller_conflates_empty_and_unsupported :
    extract_text_from_file ⟨txtMime, [], [], []⟩ = some []
    ∧ extract_text_from_file ⟨"image/png".data, [], [], []⟩ = none
    ∧ pyTruthy (extract_text_from_file ⟨txtMime, [], [], []⟩)
        = pyTruthy (extract_text_from_file ⟨"image/png".data, [], [], []⟩) := by
  refine ⟨by decide, by decide, by decide⟩

/-- C3 (amended): `extract_text_from_file` returns the unsupported
signal `none` — distinct from the empty extraction `some ""` — exactly
for content types outside {PDF, DOCX, plain text}, and never fails on
those three (the embedding is total on well-formed library output); but
the caller's `if document_text:` test conflates the unsupported signal
with an empty extraction: it takes the error branch exactly when the
result is `none` or `some ""`. -/
theorem extract_text_unsupported_signal (file : UploadedFile) :
    (extract_text_from_file file = none ↔
      ¬(file.ftype = pdfMime ∨ file.ftype = docxMime ∨ file.ftype = txtMime))
    ∧ (pyTruthy (extract_text_from_file file) = false ↔
      extract_text_from_file file = none ∨ extract_text_from_file file = some []) := by
  constructor
  · unfold extract_text_from_file
    by_cases h1 : file.ftype = pdfMime
    · rw [if_pos h1]
      simp [h1]
    · rw [if_neg h1]
      by_cases h2 : file.ftype = docxMime
      · rw [if_pos h2]
        simp [h1, h2]
      · rw [if_neg h2]
        by_cases h3 : file.ftype = txtMime
        · rw [if_pos h3]
          simp [h1, h2, h3]
        · rw [if_neg h3]
          simp [h1, h2, h3]
  · cases hr : extract_text_from_file file with
    | none => simp [pyTruthy]
    | some s =>
      cases s with
      | nil => simp [pyTruthy]
      | cons c cs => simp [pyTruthy]

/-- C7: for each supported content type, extraction concatenates the
paragraph-level units in document order — DOCX paragraphs joined with a
newline separator, PDF pages concatenated in order (pages are
page-level, not paragraph-level units, and receive no separator), plain
text returned whole. -/
theorem extract_text_concat (file : UploadedFile) :
    (file.ftype = pdfMime → extract_text_from_file file = some file.pdfPages.flatten)
    ∧ (file.ftype = docxMime →
        extract_text_from_file file = some (List.intercalate ['\n'] file.docxParagraphs))
    ∧ (file.ftype = txtMime → extract_text_from_file file = some file.rawText) := by
  refine ⟨?_, ?_, ?_⟩
  · intro h
    unfold extract_text_from_file
    rw [if_pos h, foldl_append_eq_join]
    simp
  · intro h
    have hne : file.ftype ≠ pdfMime := by rw [h]; decide
    unfold extract_text_from_file
    rw [if_neg hne, if_pos h]
  · intro h
    have hne1 : file.ftype ≠ pdfMime := by rw [h]; decide
    have hne2 : file.ftype ≠ docxMime := by rw [h]; decide
    unfold extract_text_from_file
    rw [if_neg hne1, if_neg hne2, if_pos h]

/-- Witness for `extract_text_concat`: a two-page PDF and a
two-paragraph DOCX. -/
theorem extract_text_concat_witness :
    extract_text_from_file ⟨pdfMime, ["ab".data, "cd".data], [], []⟩ = some "abcd".data
    ∧ extract_text_from_file ⟨docxMime, [], ["p1".data, "p2".data], []⟩ =
        some "p1\np2".data := by
  constructor
  · have h := (extract_text_concat ⟨pdfMime, ["ab".data, "cd".data], [], []⟩).1 rfl
    rw [h]
    decide
  · have h := (extract_text_concat ⟨docxMime, [], ["p1".data, "p2".data], []⟩).2.1 rfl
    rw [h]
    decide

/-! ## Summarization invocation (app2.py lines 135-142)

`summarizer(document_text, max_length=150, min_length=30,
do_sample=False)` runs inside `try:`; on any exception `e` the handler
shows `st.error(f"Error during summarization: " + str(e))` and nothing
else on the page changes.  The external model is a parameter returning
either a summary text or an exception message. -/

structure SummPage where
  extractedText : List Char
  summaryShown : Option (List Char)
  errorShown : Option (List Char)
deriving DecidableEq

def summarize_handler (summarizer : List Char → Except (List Char) (List Char))
    (page : SummPage) : SummPage :=
  match summarizer page.extractedText with
  | Except.ok s => { page with summaryShown := some s }
  | Except.error e =>
      { page with errorShown := some ("Error during summarization: ".data ++ e) }

/-- C9: every failure of the external summarization function is caught
and rendered as a user-visible error message, the extracted text and the
previously shown summary are unchanged by the failure; a success shows
the returned summary. -/
theorem summarize_handler_catches
    (summarizer : List Char → Except (List Char) (List Char)) (page : SummPage) :
    (∀ e, summarizer page.extractedText = Except.error e →
      summarize_handler summarizer page =
        { page with errorShown := some ("Error during summarization: ".data ++ e) })
    ∧ (∀ s, summarizer page.extractedText = Except.ok s →
      summarize_handler summarizer page = { page with summaryShown := some s }) := by
  constructor
  · intro e he
    simp [summarize_handler, he]
  · intro s hs
    simp [summarize_handler, hs]

/-- Witness for `summarize_handler_catches`: a summarizer that always
fails with message `boom`. -/
theorem summarize_handler_catches_witness :
    summarize_handler (fun _ => Except.error "boom".data) ⟨"doc".data, none, none⟩ =
      ⟨"doc".data, none, some ("Error during summarization: boom".data)⟩ := by
  have h := (summarize_handler_catches (fun _ => Except.error "boom".data)
    ⟨"doc".data, none, none⟩).1 "boom".data rfl
  rw [h]
  decide

/-! ## Streamed chat response (`display_response`, app2.py lines 171-190)

The async loop consumes `(chunk, metadata)` pairs in delivery order; for
each chunk that `isinstance(chunk, AIMessage)` it appends
`chunk.content` to `accumulated_response` and re-renders the text area
with the whole buffer; other chunks are skipped.  We model the stream as
the list of delivered chunks and collect the successive displayed
buffer states. -/

structure StreamChunk where
  isAI : Bool
  content : List Char
deriving DecidableEq

def displayStates : List StreamChunk → List Char → List (List Char)
  | [], _ => []
  | ch :: rest, acc =>
    if ch.isAI then (acc ++ ch.content) :: displayStates rest (acc ++ ch.content)
    else displayStates rest acc

/-- `display_response()` from app2.py: the sequence of buffer states
rendered to the response placeholder, starting from the empty buffer. -/
def display_response (chunks : List StreamChunk) : List (List Char) :=
  displayStates chunks []

/-- Specification-side description: the i-th displayed state is the
concatenation of the first `i+1` assistant fragments. -/
def displayedPrefixes (contents : List (List Char)) : List (List Char) :=
  (List.range contents.length).map (fun i => (contents.take (i + 1)).flatten)

theorem displayStates_eq (chunks : List StreamChunk) : ∀ acc : List Char,
    displayStates chunks acc =
      (List.range ((chunks.filter (fun ch => ch.isAI)).map (fun ch => ch.content)).length).map
        (fun i =>
          acc ++ (((chunks.filter (fun ch => ch.isAI)).map (fun ch => ch.content)).take (i + 1)).flatten) := by
  induction chunks with
  | nil => intro acc; simp [displayStates]
  | cons ch rest ih =>
    intro acc
    by_cases hai : ch.isAI
    · have hfil : List.filter (fun ch => ch.isAI) (ch :: rest)
          = ch :: List.filter (fun ch => ch.isAI) rest := by
        simp [List.filter_cons, hai]
      simp only [displayStates, hai, if_true]
      rw [ih (acc ++ ch.content), hfil]
      simp [List.range_succ_eq_map, List.map_map, Function.comp, List.append_assoc]
    · have hai' : ch.isAI = false := Bool.eq_false_iff.mpr hai
      have hfil : List.filter (fun ch => ch.isAI) (ch :: rest)
          = List.filter (fun ch => ch.isAI) rest := by
        simp [List.filter_cons, hai']
      simp only [displayStates, hai', Bool.false_eq_true, if_false, hfil]
      exact ih acc

/-- C4: the chat handler concatenates assistant-tagged fragments in
strict delivery order and displays the growing buffer after each one:
the i-th displayed state is the concatenation of the first `i+1`
assistant fragment texts; non-assistant fragments contribute nothing;
and on the stream `["Hel", "lo ", "world"]` the successive displays are
exactly `"Hel"`, `"Hello "`, `"Hello world"`. -/
theorem display_response_order (chunks : List StreamChunk) :
    display_response chunks =
      displayedPrefixes ((chunks.filter (fun ch => ch.isAI)).map (fun ch => ch.content))
    ∧ display_response chunks = display_response (chunks.filter (fun ch => ch.isAI))
    ∧ display_response [⟨true, "Hel".data⟩, ⟨true, "lo ".data⟩, ⟨true, "world".data⟩]
        = ["Hel".data, "Hello ".data, "Hello world".data] := by
  refine ⟨?_, ?_, by decide⟩
  · show displayStates chunks [] = _
    rw [displayStates_eq chunks []]
    simp [displayedPrefixes]
  · show displayStates chunks [] = displayStates (chunks.filter (fun ch => ch.isAI)) []
    rw [displayStates_eq chunks [], displayStates_eq (chunks.filter (fun ch => ch.isAI)) []]
    simp [List.filter_filter]

/-! ## CSV persistence (`save_feedback_to_csv` / `save_questionnaire_to_csv`,
app2.py lines 208-225)

`pd.DataFrame([record]).to_csv(path, index=False)` writes a header row
(the record's field names, in insertion order) and one value row;
with `mode='a', header=False` it appends one value row only.  The file
is modelled at row level as the list of its rows. -/

structure CsvFile where
  rows : List (List (List Char))
deriving DecidableEq

def save_feedback_to_csv (feedback_data : List (List Char × List Char)) :
    Option CsvFile → CsvFile
  | none => ⟨[feedback_data.map Prod.fst, feedback_data.map Prod.snd]⟩
  | some f => ⟨f.rows ++ [feedback_data.map Prod.snd]⟩

def save_questionnaire_to_csv (data : List (List Char × List Char)) :
    Option CsvFile → CsvFile
  | none => ⟨[data.map Prod.fst, data.map Prod.snd]⟩
  | some f => ⟨f.rows ++ [data.map Prod.snd]⟩

/-- C5: for both logs, a save on a non-existent path creates a file
whose first row is the record's field names and whose second row is its
values; every save on an existing file appends exactly one value row and
no header row. -/
theorem append_row_semantics (record : List (List Char × List Char)) :
    (save_feedback_to_csv record none).rows
        = [record.map Prod.fst, record.map Prod.snd]
    ∧ (∀ f : CsvFile, (save_feedback_to_csv record (some f)).rows
        = f.rows ++ [record.map Prod.snd])
    ∧ (save_questionnaire_to_csv record none).rows
        = [record.map Prod.fst, record.map Prod.snd]
    ∧ (∀ f : CsvFile, (save_questionnaire_to_csv record (some f)).rows
        = f.rows ++ [record.map Prod.snd]) :=
  ⟨rfl, fun _ => rfl, rfl, fun _ => rfl⟩

/-! ## Page handlers (app2.py lines 88-99, 163-192, 244-249, 258-263)

The button handlers are inline in the page script; each is embedded as a
function of the state it reads, returning the state it produces together
with the user-facing outcome (document produced / warning shown). -/

/-- The `Generate Filled Document` handler: `if all(user_inputs.values())`
produce the filled document, else show a warning and produce nothing;
nothing else beyond the returned pair is touched. -/
def generate_filled_document (user_inputs : List (List Char × List Char))
    (template_paragraphs : List (List Char)) :
    Option (List (List Char)) × Bool :=
  if user_inputs.all (fun fv => !fv.2.isEmpty) then
    (some (fill_docx_template template_paragraphs user_inputs), false)
  else
    (none, true)

/-- C6: the generation handler warns and produces no document exactly
when some detected placeholder has an empty supplied value; when every
value is non-empty it produces the filled document without warning. -/
theorem generate_filled_document_guard (user_inputs : List (List Char × List Char))
    (template_paragraphs : List (List Char)) :
    (((generate_filled_document user_inputs template_paragraphs).1 = none
        ∧ (generate_filled_document user_inputs template_paragraphs).2 = true)
      ↔ ∃ fv ∈ user_inputs, fv.2 = [])
    ∧ ((∀ fv ∈ user_inputs, fv.2 ≠ []) →
        generate_filled_document user_inputs template_paragraphs
          = (some (fill_docx_template template_paragraphs user_inputs), false)) := by
  constructor
  · by_cases hall : user_inputs.all (fun fv => !fv.2.isEmpty) = true
    · simp only [generate_filled_document, hall, if_true]
      constructor
      · intro h
        exact absurd h.1 (by simp)
      · rintro ⟨fv, hfv, hempty⟩
        have := List.all_eq_true.mp hall fv hfv
        rw [hempty] at this
        simp at this
    · have hall' : user_inputs.all (fun fv => !fv.2.isEmpty) = false :=
        Bool.eq_false_iff.mpr hall
      simp only [generate_filled_document, hall', Bool.false_eq_true, if_false]
      constructor
      · intro _
        rcases List.all_eq_false.mp hall' with ⟨fv, hfv, hne⟩
        exact ⟨fv, hfv, by simpa using hne⟩
      · intro _
        exact ⟨by simp, by simp⟩
  · intro hfull
    have hall : user_inputs.all (fun fv => !fv.2.isEmpty) = true := by
      rw [List.all_eq_true]
      intro fv hfv
      simpa using hfull fv hfv
    simp [generate_filled_document, hall]

/-- Witness for `generate_filled_document_guard`: an empty `Name` value
blocks generation with a warning; a non-empty one produces the filled
document. -/
theorem generate_filled_document_guard_witness :
    ((generate_filled_document [("Name".data, [])] ["\x7b\x7bName\x7d\x7d".data]).1 = none
      ∧ (generate_filled_document [("Name".data, [])] ["\x7b\x7bName\x7d\x7d".data]).2 = true)
    ∧ generate_filled_document [("Name".data, "Ada".data)] ["\x7b\x7bName\x7d\x7d".data]
        = (some (fill_docx_template ["\x7b\x7bName\x7d\x7d".data]
            [("Name".data, "Ada".data)]), false) := by
  constructor
  · exact (generate_filled_document_guard [("Name".data, [])]
      ["\x7b\x7bName\x7d\x7d".data]).1.mpr ⟨("Name".data, []), by simp, rfl⟩
  · exact (generate_filled_document_guard [("Name".data, "Ada".data)]
      ["\x7b\x7bName\x7d\x7d".data]).2 (by decide)

/-- The `Submit Questionnaire` handler: `if all(...)` save and thank,
else warn and leave the file untouched. -/
def submit_questionnaire (responses : List (List Char × List Char))
    (file : Option CsvFile) : Option CsvFile × Bool :=
  if responses.all (fun fv => !fv.2.isEmpty) then
    (some (save_questionnaire_to_csv responses file), false)
  else
    (file, true)

/-- The `Submit Feedback` handler: saves unconditionally — there is no
all-fields-filled guard in the source. -/
def submit_feedback (feedback : List (List Char × List Char))
    (file : Option CsvFile) : Option CsvFile × Bool :=
  (some (save_feedback_to_csv feedback file), false)

/-- C8 corrected, counterexample to the claim as stated: a feedback
submission whose `Comments` field is empty still reaches the
persistence function — a row is written and no warning is shown — so
the feedback form has no UI-level all-fields-filled check. -/
theorem submit_feedback_no_validation :
    (∃ fv ∈ [("User Experience".data, "Excellent".data),
      ("Ease of Use".data, "Yes".data), ("Accuracy".data, "Yes".data),
      ("Comments".data, ([] : List Char))], fv.2 = [])
    ∧ submit_feedback [("User Experience".data, "Excellent".data),
        ("Ease of Use".data, "Yes".data), ("Accuracy".data, "Yes".data),
        ("Comments".data, [])] none
      = (some (save_feedback_to_csv [("User Experience".data, "Excellent".data),
          ("Ease of Use".data, "Yes".data), ("Accuracy".data, "Yes".data),
          ("Comments".data, [])] none), false) := by
  exact ⟨⟨("Comments".data, []), by simp, rfl⟩, rfl⟩

/-- C8 (amended): only the questionnaire form applies the UI-level
all-fields-filled check before persisting — an empty field blocks the
save with a warning and leaves the file untouched, and a complete
submission persists; the feedback form applies no check and always
persists, even with an empty field. -/
theorem submit_validation (responses feedback : List (List Char × List Char))
    (file : Option CsvFile) :
    ((∃ fv ∈ responses, fv.2 = []) → submit_questionnaire responses file = (file, true))
    ∧ ((∀ fv ∈ responses, fv.2 ≠ []) →
        submit_questionnaire responses file
          = (some (save_questionnaire_to_csv responses file), false))
    ∧ submit_feedback feedback file = (some (save_feedback_to_csv feedback file), false) := by
  refine ⟨?_, ?_, rfl⟩
  · rintro ⟨fv, hfv, hempty⟩
    have hall : responses.all (fun fv => !fv.2.isEmpty) = false := by
      rw [List.all_eq_false]
      exact ⟨fv, hfv, by simp [hempty]⟩
    simp [submit_questionnaire, hall]
  · intro hfull
    have hall : responses.all (fun fv => !fv.2.isEmpty) = true := by
      rw [List.all_eq_true]
      intro fv hfv
      simpa using hfull fv hfv
    simp [submit_questionnaire, hall]

/-- Witness for `submit_validation`: an incomplete questionnaire warns
without writing; a complete one writes. -/
theorem submit_validation_witness :
    submit_questionnaire [("Name".data, [])] none = (none, true)
    ∧ submit_questionnaire [("Name".data, "Ada".data)] none
        = (some (save_questionnaire_to_csv [("Name".data, "Ada".data)] none), false) := by
  constructor
  · exact (submit_validation [("Name".data, [])] [] none).1
      ⟨("Name".data, []), by simp, rfl⟩
  · exact (submit_validation [("Name".data, "Ada".data)] [] none).2.1 (by decide)

/-! ## Chat history (app2.py lines 148-149, 163-200)

`st.session_state.chat_history` starts empty; the `Ask` handler appends
`HumanMessage(content=user_input)` when `user_input.strip()` is truthy
and otherwise shows a warning; the streamed assistant response is
displayed via `display_response` but never appended to the history.
The renderer prints a `You:` line for `HumanMessage` and a `Chatbot:`
line for `AIMessage`. -/

inductive ChatMsg
  | human (content : List Char)
  | ai (content : List Char)
deriving DecidableEq

/-- Python's whitespace set for `str.strip()`. -/
def pyWhitespace (c : Char) : Bool :=
  c = ' ' || c = '\t' || c = '\n' || c = '\r' || c = '\x0b' || c = '\x0c'

/-- Python's `s.strip()`. -/
def strip (s : List Char) : List Char :=
  ((s.dropWhile pyWhitespace).reverse.dropWhile pyWhitespace).reverse

/-- The `Ask` handler's effect on the chat history: append one
user-authored message on a non-whitespace query, warn otherwise; the
assistant stream goes to `display_response` only, never to the
history. -/
def ask_handler (history : List ChatMsg) (user_input : List Char) :
    List ChatMsg × Bool :=
  if !(strip user_input).isEmpty then
    (history ++ [ChatMsg.human user_input], false)
  else
    (history, true)

/-- The history after a sequence of `Ask` interactions, starting from
the empty initial history. -/
def chat_session (queries : List (List Char)) : List ChatMsg :=
  queries.foldl (fun h q => (ask_handler h q).1) []

/-- The history renderer (app2.py lines 196-200). -/
def render_message : ChatMsg → List Char
  | ChatMsg.human c => "**You:** ".data ++ c
  | ChatMsg.ai c => "**Chatbot:** ".data ++ c

theorem chat_session_foldl (queries : List (List Char)) :
    ∀ h : List ChatMsg,
      queries.foldl (fun h q => (ask_handler h q).1) h
        = h ++ (queries.filter (fun q => !(strip q).isEmpty)).map ChatMsg.human := by
  induction queries with
  | nil => intro h; simp
  | cons q rest ih =>
    intro h
    rw [List.foldl_cons]
    by_cases hq : (strip q).isEmpty = true
    · have hstep : (ask_handler h q).1 = h := by simp [ask_handler, hq]
      rw [hstep, ih h, List.filter_cons]
      simp [hq]
    · have hq' : (strip q).isEmpty = false := Bool.eq_false_iff.mpr hq
      have hstep : (ask_handler h q).1 = h ++ [ChatMsg.human q] := by
        simp [ask_handler, hq']
      rw [hstep, ih (h ++ [ChatMsg.human q]), List.filter_cons]
      simp [hq']

/-- C10: the chat history contains only user-authored messages.  Each
`Ask` on a query with non-whitespace content appends exactly one user
message and a whitespace-only query leaves the history unchanged (with
a warning); after any sequence of interactions the history is exactly
the non-whitespace queries as user messages, so the renderer's
assistant branch is dead code on reachable histories. -/
theorem chat_history_only_user (queries : List (List Char)) :
    (∀ (h : List ChatMsg) (q : List Char), (strip q).isEmpty = false →
      ask_handler h q = (h ++ [ChatMsg.human q], false))
    ∧ (∀ (h : List ChatMsg) (q : List Char), (strip q).isEmpty = true →
      ask_handler h q = (h, true))
    ∧ chat_session queries
        = (queries.filter (fun q => !(strip q).isEmpty)).map ChatMsg.human
    ∧ (∀ m ∈ chat_session queries, ∃ c, m = ChatMsg.human c
        ∧ render_message m = "**You:** ".data ++ c) := by
  have hsession : chat_session queries
      = (queries.filter (fun q => !(strip q).isEmpty)).map ChatMsg.human := by
    have := chat_session_foldl queries []
    simpa [chat_session] using this
  refine ⟨?_, ?_, hsession, ?_⟩
  · intro h q hq
    simp [ask_handler, hq]
  · intro h q hq
    simp [ask_handler, hq]
  · intro m hm
    rw [hsession] at hm
    rcases List.mem_map.mp hm with ⟨q, _, rfl⟩
    exact ⟨q, rfl, rfl⟩

/-- Witness for `chat_history_only_user`: a non-whitespace query appends
one user message; a whitespace-only query leaves the history alone. -/
theorem chat_history_only_user_witness :
    ask_handler [] "hi".data = ([ChatMsg.human "hi".data], false)
    ∧ ask_handler [ChatMsg.human "hi".data] "  ".data
        = ([ChatMsg.human "hi".data], true) := by
  constructor
  · exact (chat_history_only_user []).1 [] "hi".data (by decide)
  · exact (chat_history_only_user []).2.1 [ChatMsg.human "hi".data] "  ".data (by decide)

end App2
